import Mathlib

/-!
Verification of the HNCcorr candidate-generation pipeline.

Coordinates are finite lists of integers (one entry per spatial axis), shapes are
lists of naturals. `Movie` and `Patch` are embedded from `src/hnccorr/movie.py`.
The helper utilities of `hnccorr.utils`, and the `hnccorr.seeder` /
`hnccorr.embedding` modules, are not present in the sources; they are modelled
from the specification (and, where the specification conflicts with them, from
the unit tests in `tests/unit/`), as indicated in the individual doc comments.
-/

namespace HNCcorr

/-- Modelled from the spec: `hnccorr.utils.add_offset_to_coordinate` is not under
`src/`. Pointwise addition of an offset to a coordinate, as used throughout
section 4.2 of the spec (`to_movie_coordinate(patch_coord) = patch_coord + offset`). -/
def add_offset_to_coordinate (coordinate offset : List Int) : List Int :=
  List.zipWith (· + ·) coordinate offset

/-- Modelled from the spec: `hnccorr.utils.generate_pixels` is not under `src/`.
Enumerates all pixel coordinates of a grid of the given shape in row-major order
(spec section 3: "pixels are indexed in a fixed, reproducible enumeration order
(row-major over spatial coordinates)"). -/
def generate_pixels : List Nat → List (List Int)
  | [] => [[]]
  | n :: rest =>
      (List.range n).flatMap (fun i => (generate_pixels rest).map (fun c => ((i : Int) :: c)))

/-- Modelled from the spec: `hnccorr.utils.add_offset_set_coordinates` is not under
`src/`. Applies the same offset to every coordinate of a sequence, preserving the
enumeration order (spec section 4.2: `enumerate_pixels()` produces the sequence of
coordinates "in the same enumeration order used for patch-local indexing"). -/
def add_offset_set_coordinates (coordinates : List (List Int)) (offset : List Int) :
    List (List Int) :=
  coordinates.map (fun c => add_offset_to_coordinate c offset)

/-- Movie: name together with the shape `(T, d1, ..., dk)` of its data array
(`movie.py`, `Movie.__init__` stores `data_size = data.shape`). The verified
operations of `Movie` consult the data only through this shape. -/
structure Movie where
  name : String
  data_size : List Nat
deriving DecidableEq

/-- Number of frames in the movie (`movie.py` line 198: `data_size[0]`). -/
def Movie.num_frames (m : Movie) : Nat := m.data_size.headD 0

/-- Resolution of the movie in pixels (`movie.py` line 203: `data_size[1:]`). -/
def Movie.pixel_shape (m : Movie) : List Nat := m.data_size.tail

/-- Dimension of the movie, excluding time (`movie.py` line 213: `len(data_size[1:])`). -/
def Movie.num_dimensions (m : Movie) : Nat := m.data_size.tail.length

/-- Number of pixels in the movie (`movie.py` line 208). -/
def Movie.num_pixels (m : Movie) : Nat := m.pixel_shape.prod

/-- Checks if `coordinate` is a coordinate for a pixel in the movie
(`movie.py` lines 186-195): the dimension must match and every component must lie
in `[0, pixel_shape[i])`. A total boolean function; it never raises. -/
def Movie.is_valid_pixel_coordinate (m : Movie) (coordinate : List Int) : Bool :=
  if m.num_dimensions ≠ coordinate.length then false
  else (coordinate.zip m.pixel_shape).all
    (fun p => decide (0 ≤ p.1) && decide (p.1 < (p.2 : Int)))

/-- Returns the subset of `pixels` that are valid coordinates for the movie
(`movie.py` lines 217-219). -/
def Movie.extract_valid_pixels (m : Movie) (pixels : Finset (List Int)) :
    Finset (List Int) :=
  pixels.filter (fun pixel => m.is_valid_pixel_coordinate pixel = true)

/-- Patch: square subregion of a Movie (`movie.py`, class `Patch`). Only the
geometric state is embedded; the data view `_data` is a slice of the movie data
determined by `coordinate_offset` and `patch_size` and is not consulted by the
verified operations. -/
structure Patch where
  movie : Movie
  center_seed : List Int
  patch_size : Nat
  num_dimensions : Nat
  coordinate_offset : List Int
deriving DecidableEq

/-- Embeds `Patch._compute_coordinate_offset` (`movie.py` lines 271-300):
clamp the tentative top-left corner at zero, clamp the exclusive bottom-right
corner at the movie extent, and re-anchor the top-left corner so that the patch
keeps exact width `patch_size` on every axis. -/
def compute_coordinate_offset (movie : Movie) (center_seed : List Int)
    (patch_size : Nat) : List Int :=
  let d := movie.num_dimensions
  let half_width : Int := ((patch_size : Int) - 1) / 2
  let topleft := add_offset_to_coordinate center_seed (List.replicate d (-half_width))
  let topleft2 := topleft.map (fun x => max x 0)
  let bottomright := add_offset_to_coordinate topleft2 (List.replicate d (patch_size : Int))
  let bottomright2 :=
    List.zipWith (fun (x : Int) (max_value : Nat) => min x (max_value : Int))
      bottomright movie.pixel_shape
  add_offset_to_coordinate bottomright2 (List.replicate d (-(patch_size : Int)))

/-- Embeds `Patch.__init__` (`movie.py` lines 249-259): an even `patch_size` is
rejected before any patch state is created; otherwise the coordinate offset is
computed and the patch is built. The center seed is never validated. -/
def Patch.init (movie : Movie) (center_seed : List Int) (patch_size : Nat) :
    Except String Patch :=
  if patch_size % 2 = 0 then
    Except.error "patch_size should be an odd number."
  else
    Except.ok
      { movie := movie
        center_seed := center_seed
        patch_size := patch_size
        num_dimensions := movie.num_dimensions
        coordinate_offset := compute_coordinate_offset movie center_seed patch_size }

/-- Shape of the patch in pixels (`movie.py` lines 266-269):
`(patch_size,) * num_dimensions`. -/
def Patch.pixel_shape (p : Patch) : List Nat :=
  List.replicate p.num_dimensions p.patch_size

/-- Converts a patch coordinate into a movie coordinate (`movie.py` lines 319-328). -/
def Patch.to_movie_coordinate (p : Patch) (patch_coordinate : List Int) : List Int :=
  add_offset_to_coordinate patch_coordinate p.coordinate_offset

/-- Converts a movie coordinate into a patch coordinate (`movie.py` lines 330-341). -/
def Patch.to_patch_coordinate (p : Patch) (movie_coordinate : List Int) : List Int :=
  add_offset_to_coordinate movie_coordinate (p.coordinate_offset.map (fun x => -x))

/-- Returns the movie coordinates of the pixels in the patch
(`movie.py` lines 343-347). -/
def Patch.enumerate_pixels (p : Patch) : List (List Int) :=
  add_offset_set_coordinates (generate_pixels p.pixel_shape) p.coordinate_offset

/-- Concrete movie used as a test fixture: a 1-D movie of 10 pixels and 3 frames,
matching the `MM` fixture of the seeder unit tests and the end-to-end example of
spec section 8. -/
def movieM : Movie := { name := "Simple", data_size := [3, 10] }

theorem pixel_shape_length (m : Movie) : m.pixel_shape.length = m.num_dimensions := rfl

theorem all_zip_bounds_iff (c : List Int) (shape : List Nat) (h : c.length = shape.length) :
    ((c.zip shape).all (fun p => decide (0 ≤ p.1) && decide (p.1 < (p.2 : Int))) = true) ↔
      List.Forall₂ (fun (x : Int) (n : Nat) => 0 ≤ x ∧ x < (n : Int)) c shape := by
  induction c generalizing shape with
  | nil =>
    cases shape with
    | nil => simp
    | cons n rest => simp at h
  | cons x xs ih =>
    cases shape with
    | nil => simp at h
    | cons n rest =>
      simp only [List.zip_cons_cons, List.all_cons, List.forall₂_cons,
        Bool.and_eq_true, decide_eq_true_eq]
      rw [ih rest (by simpa using h)]

theorem is_valid_pixel_coordinate_iff (m : Movie) (c : List Int) :
    m.is_valid_pixel_coordinate c = true ↔
      (c.length = m.num_dimensions ∧
        List.Forall₂ (fun (x : Int) (n : Nat) => 0 ≤ x ∧ x < (n : Int)) c m.pixel_shape) := by
  unfold Movie.is_valid_pixel_coordinate
  by_cases hlen : m.num_dimensions = c.length
  · rw [if_neg (by omega)]
    rw [all_zip_bounds_iff c m.pixel_shape (by rw [pixel_shape_length]; omega)]
    tauto
  · rw [if_pos (by omega)]
    constructor
    · intro hfalse; exact absurd hfalse (by simp)
    · rintro ⟨h1, -⟩; omega

/-- Claim C9: `is_valid_pixel_coordinate(c)` is true exactly when the dimension of
`c` matches the movie and every component lies in `[0, pixel_shape[i])`; it is a
total boolean predicate, returning false (never raising) otherwise; and
`extract_valid_pixels(S)` is exactly the subset of `S` on which the predicate
holds. -/
theorem valid_pixel_predicate_and_filter (m : Movie) :
    (∀ c : List Int,
      m.is_valid_pixel_coordinate c = true ↔
        (c.length = m.num_dimensions ∧
          List.Forall₂ (fun (x : Int) (n : Nat) => 0 ≤ x ∧ x < (n : Int)) c m.pixel_shape)) ∧
    (∀ (S : Finset (List Int)) (x : List Int),
      x ∈ m.extract_valid_pixels S ↔ x ∈ S ∧ m.is_valid_pixel_coordinate x = true) := by
  refine ⟨fun c => is_valid_pixel_coordinate_iff m c, fun S x => ?_⟩
  simp [Movie.extract_valid_pixels]

theorem compute_coordinate_offset_length (movie : Movie) (seed : List Int) (ps : Nat)
    (h : seed.length = movie.num_dimensions) :
    (compute_coordinate_offset movie seed ps).length = movie.num_dimensions := by
  simp [compute_coordinate_offset, add_offset_to_coordinate, pixel_shape_length, h]

theorem compute_coordinate_offset_getD (movie : Movie) (seed : List Int) (ps : Nat)
    (h : seed.length = movie.num_dimensions) (i : Nat) (hi : i < movie.num_dimensions) :
    (compute_coordinate_offset movie seed ps).getD i 0 =
      min (max (seed.getD i 0 - ((ps : Int) - 1) / 2) 0 + ps)
        ((movie.pixel_shape.getD i 0 : Int)) - ps := by
  have hlen := compute_coordinate_offset_length movie seed ps h
  have hshape : movie.pixel_shape.length = movie.num_dimensions := pixel_shape_length movie
  rw [List.getD_eq_getElem _ _ (by omega), List.getD_eq_getElem _ _ (by omega),
    List.getD_eq_getElem _ _ (by omega)]
  simp only [compute_coordinate_offset, add_offset_to_coordinate, List.getElem_zipWith,
    List.getElem_map, List.getElem_replicate]
  omega

theorem clamp_axis_bounds (s e hw : Int) (ps : Nat) (hps : (ps : Int) ≤ e) :
    0 ≤ min (max (s - hw) 0 + ps) e - ps ∧
      min (max (s - hw) 0 + ps) e - ps + ps ≤ e := by
  omega

theorem half_width_bounds (ps : Nat) (hpos : 1 ≤ ps) :
    0 ≤ ((ps : Int) - 1) / 2 ∧ ((ps : Int) - 1) / 2 < ps := by
  omega

theorem Patch.init_ok (movie : Movie) (seed : List Int) (ps : Nat) (p : Patch)
    (hinit : Patch.init movie seed ps = Except.ok p) :
    p.movie = movie ∧ p.center_seed = seed ∧ p.patch_size = ps ∧
      p.num_dimensions = movie.num_dimensions ∧
      p.coordinate_offset = compute_coordinate_offset movie seed ps := by
  rw [Patch.init] at hinit
  split at hinit
  · exact absurd hinit (by simp)
  · cases hinit
    exact ⟨rfl, rfl, rfl, rfl, rfl⟩

/-- Claim C6: constructing a Patch with an even `patch_size` fails at construction
time with the configuration error, before any patch state is created. -/
theorem even_patch_size_rejected (movie : Movie) (center_seed : List Int)
    (patch_size : Nat) (h : patch_size % 2 = 0) :
    Patch.init movie center_seed patch_size =
      Except.error "patch_size should be an odd number." := by
  simp [Patch.init, h]

/-- Witness for C6 at a concrete input: `patch_size = 4` on the 10-pixel movie. -/
theorem even_patch_size_rejected_witness :
    4 % 2 = 0 ∧
      Patch.init movieM [5] 4 = Except.error "patch_size should be an odd number." :=
  ⟨by decide, even_patch_size_rejected movieM [5] 4 (by decide)⟩

/-- Claim C1 (amended): for every odd `patch_size` that is no larger than each
spatial extent of the movie and every valid `center_seed`, the constructed Patch
has pixel shape `(patch_size,) * num_dimensions` and its window lies entirely
within the movie: `0 ≤ offset_i` and `offset_i + patch_size ≤ pixel_shape[i]` on
every axis. The fit hypothesis is necessary: for `patch_size` exceeding an
extent, the re-anchored offset becomes negative. -/
theorem patch_shape_and_window_within_movie (movie : Movie) (center_seed : List Int)
    (patch_size : Nat) (hodd : patch_size % 2 = 1)
    (hvalid : movie.is_valid_pixel_coordinate center_seed = true)
    (hfit : ∀ s ∈ movie.pixel_shape, patch_size ≤ s) :
    ∃ p : Patch, Patch.init movie center_seed patch_size = Except.ok p ∧
      p.pixel_shape = List.replicate movie.num_dimensions patch_size ∧
      List.Forall₂ (fun (o : Int) (s : Nat) => 0 ≤ o ∧ o + (patch_size : Int) ≤ (s : Int))
        p.coordinate_offset movie.pixel_shape := by
  have hlen : center_seed.length = movie.num_dimensions :=
    ((is_valid_pixel_coordinate_iff movie center_seed).mp hvalid).1
  refine ⟨⟨movie, center_seed, patch_size, movie.num_dimensions,
    compute_coordinate_offset movie center_seed patch_size⟩, ?_, rfl, ?_⟩
  · rw [Patch.init, if_neg (by omega)]
  · have hofflen := compute_coordinate_offset_length movie center_seed patch_size hlen
    have hshape : movie.pixel_shape.length = movie.num_dimensions := pixel_shape_length movie
    show List.Forall₂ _ (compute_coordinate_offset movie center_seed patch_size)
      movie.pixel_shape
    rw [List.forall₂_iff_get]
    refine ⟨by omega, fun i h1 h2 => ?_⟩
    have hi : i < movie.num_dimensions := by omega
    have hmem : movie.pixel_shape.getD i 0 ∈ movie.pixel_shape := by
      rw [List.getD_eq_getElem _ _ (by omega)]
      exact List.getElem_mem _
    have he : (patch_size : Int) ≤ (movie.pixel_shape.getD i 0 : Int) := by
      exact_mod_cast hfit _ hmem
    have hb := clamp_axis_bounds (center_seed.getD i 0)
      ((movie.pixel_shape.getD i 0 : Int)) (((patch_size : Int) - 1) / 2) patch_size he
    rw [← compute_coordinate_offset_getD movie center_seed patch_size hlen i hi] at hb
    rw [List.getD_eq_getElem _ _ (by omega : i <
        (compute_coordinate_offset movie center_seed patch_size).length),
      List.getD_eq_getElem _ _ (by omega : i < movie.pixel_shape.length)] at hb
    simp only [List.get_eq_getElem]
    exact ⟨hb.1, hb.2⟩

/-- Concrete patch produced by `Patch.init movieM [4] 5`: offset 2, window `[2, 7)`. -/
def patchMid : Patch :=
  { movie := movieM, center_seed := [4], patch_size := 5,
    num_dimensions := 1, coordinate_offset := [2] }

/-- Witness for the amended C1 at a concrete input: the 10-pixel movie, seed `(4,)`,
`patch_size = 5`. -/
theorem patch_shape_and_window_within_movie_witness :
    (5 % 2 = 1 ∧ movieM.is_valid_pixel_coordinate [4] = true ∧
        (∀ s ∈ movieM.pixel_shape, 5 ≤ s)) ∧
      ∃ p : Patch, Patch.init movieM [4] 5 = Except.ok p ∧
        p.pixel_shape = List.replicate movieM.num_dimensions 5 ∧
        List.Forall₂ (fun (o : Int) (s : Nat) => 0 ≤ o ∧ o + (5 : Int) ≤ (s : Int))
          p.coordinate_offset movieM.pixel_shape :=
  ⟨⟨by decide, by decide, by decide⟩,
    patch_shape_and_window_within_movie movieM [4] 5 (by decide) (by decide) (by decide)⟩

/-- Concrete patch produced by `Patch.init movieM [5] 11`: the patch is wider than
the 10-pixel movie, so the re-anchored offset is `-1`. -/
def pOversized : Patch :=
  { movie := movieM, center_seed := [5], patch_size := 11,
    num_dimensions := 1, coordinate_offset := [-1] }

/-- Counterexample to C1 as stated: `patch_size = 11` is odd and `(5,)` is a valid
pixel coordinate of the 10-pixel movie, yet the constructed patch has coordinate
offset `-1 < 0`, so its window does not lie within `[0, pixel_shape)`. -/
theorem patch_window_escapes_for_oversized_patch :
    movieM.is_valid_pixel_coordinate [5] = true ∧ 11 % 2 = 1 ∧
      Patch.init movieM [5] 11 = Except.ok pOversized ∧
      pOversized.coordinate_offset = [-1] ∧ ¬ (0 ≤ (-1 : Int)) := by
  exact ⟨by decide, by decide, rfl, rfl, by decide⟩

/-- Claim C10: Patch construction never validates `center_seed`: for every odd
`patch_size` no larger than each spatial extent, construction succeeds for any
seed of the right dimension, including seeds outside the movie bounds, and the
window is clamped against the nearest movie boundary: it always lies within the
movie, it starts at the left edge when the seed component is negative, and it
ends at the right edge when the seed component is at or beyond the extent. -/
theorem patch_accepts_out_of_bounds_seed (movie : Movie) (center_seed : List Int)
    (patch_size : Nat) (hodd : patch_size % 2 = 1)
    (hlen : center_seed.length = movie.num_dimensions)
    (hfit : ∀ s ∈ movie.pixel_shape, patch_size ≤ s) :
    ∃ p : Patch, Patch.init movie center_seed patch_size = Except.ok p ∧
      ∀ i, i < movie.num_dimensions →
        (0 ≤ p.coordinate_offset.getD i 0 ∧
          p.coordinate_offset.getD i 0 + (patch_size : Int) ≤
            (movie.pixel_shape.getD i 0 : Int)) ∧
        (center_seed.getD i 0 < 0 → p.coordinate_offset.getD i 0 = 0) ∧
        ((movie.pixel_shape.getD i 0 : Int) ≤ center_seed.getD i 0 →
          p.coordinate_offset.getD i 0 + (patch_size : Int) =
            (movie.pixel_shape.getD i 0 : Int)) := by
  refine ⟨_, by rw [Patch.init, if_neg (by omega)], fun i hi => ?_⟩
  have hshape : movie.pixel_shape.length = movie.num_dimensions := pixel_shape_length movie
  have hmem : movie.pixel_shape.getD i 0 ∈ movie.pixel_shape := by
    rw [List.getD_eq_getElem _ _ (by omega)]
    exact List.getElem_mem _
  have he : (patch_size : Int) ≤ (movie.pixel_shape.getD i 0 : Int) := by
    exact_mod_cast hfit _ hmem
  have hhw := half_width_bounds patch_size (by omega)
  rw [compute_coordinate_offset_getD movie center_seed patch_size hlen i hi]
  constructor
  · exact clamp_axis_bounds _ _ _ _ he
  · constructor
    · intro hneg
      omega
    · intro hbig
      omega

/-- Witness for C10 at a concrete input: seed `(100,)` lies far outside the
10-pixel movie, construction still succeeds with `patch_size = 3`, and the window
`[7, 10)` is clamped against the right boundary. -/
theorem patch_accepts_out_of_bounds_seed_witness :
    (3 % 2 = 1 ∧ movieM.is_valid_pixel_coordinate [100] = false ∧
        ([100] : List Int).length = movieM.num_dimensions ∧
        (∀ s ∈ movieM.pixel_shape, 3 ≤ s)) ∧
      ∃ p : Patch, Patch.init movieM [100] 3 = Except.ok p ∧
        ∀ i, i < movieM.num_dimensions →
          (0 ≤ p.coordinate_offset.getD i 0 ∧
            p.coordinate_offset.getD i 0 + (3 : Int) ≤
              (movieM.pixel_shape.getD i 0 : Int)) ∧
          (([100] : List Int).getD i 0 < 0 → p.coordinate_offset.getD i 0 = 0) ∧
          ((movieM.pixel_shape.getD i 0 : Int) ≤ ([100] : List Int).getD i 0 →
            p.coordinate_offset.getD i 0 + (3 : Int) =
              (movieM.pixel_shape.getD i 0 : Int)) :=
  ⟨⟨by decide, by decide, by decide, by decide⟩,
    patch_accepts_out_of_bounds_seed movieM [100] 3 (by decide) (by decide) (by decide)⟩

theorem add_offset_neg_cancel (c o : List Int) (h : c.length = o.length) :
    add_offset_to_coordinate (add_offset_to_coordinate c o) (o.map (fun x => -x)) = c := by
  induction c generalizing o with
  | nil => rfl
  | cons x xs ih =>
    cases o with
    | nil => simp at h
    | cons y ys =>
      have hlen : xs.length = ys.length := by simpa using h
      have ih2 := ih ys hlen
      simp only [add_offset_to_coordinate, List.zipWith_cons_cons, List.map_cons] at ih2 ⊢
      rw [ih2]
      simp

theorem add_neg_offset_cancel (c o : List Int) (h : c.length = o.length) :
    add_offset_to_coordinate (add_offset_to_coordinate c (o.map (fun x => -x))) o = c := by
  induction c generalizing o with
  | nil => rfl
  | cons x xs ih =>
    cases o with
    | nil => simp at h
    | cons y ys =>
      have hlen : xs.length = ys.length := by simpa using h
      have ih2 := ih ys hlen
      simp only [add_offset_to_coordinate, List.zipWith_cons_cons, List.map_cons] at ih2 ⊢
      rw [ih2]
      simp

/-- Claim C5: for every constructed Patch, `to_movie_coordinate` and
`to_patch_coordinate` are exact inverses on coordinates of the movie's dimension. -/
theorem patch_coordinate_round_trip (movie : Movie) (center_seed : List Int)
    (patch_size : Nat) (p : Patch)
    (hinit : Patch.init movie center_seed patch_size = Except.ok p)
    (hlen : center_seed.length = movie.num_dimensions) :
    (∀ c : List Int, c.length = movie.num_dimensions →
        p.to_patch_coordinate (p.to_movie_coordinate c) = c) ∧
    (∀ mc : List Int, mc.length = movie.num_dimensions →
        p.to_movie_coordinate (p.to_patch_coordinate mc) = mc) := by
  obtain ⟨-, -, -, -, hoff⟩ := Patch.init_ok movie center_seed patch_size p hinit
  have hofflen : p.coordinate_offset.length = movie.num_dimensions := by
    rw [hoff]
    exact compute_coordinate_offset_length movie center_seed patch_size hlen
  constructor
  · intro c hc
    exact add_offset_neg_cancel c p.coordinate_offset (by omega)
  · intro mc hmc
    exact add_neg_offset_cancel mc p.coordinate_offset (by omega)

/-- Witness for C5 at a concrete input: the patch around seed `(4,)` with size 5;
both round trips hold for every 1-dimensional coordinate. -/
theorem patch_coordinate_round_trip_witness :
    (Patch.init movieM [4] 5 = Except.ok patchMid ∧
        ([4] : List Int).length = movieM.num_dimensions) ∧
      (∀ c : List Int, c.length = movieM.num_dimensions →
          patchMid.to_patch_coordinate (patchMid.to_movie_coordinate c) = c) ∧
      (∀ mc : List Int, mc.length = movieM.num_dimensions →
          patchMid.to_movie_coordinate (patchMid.to_patch_coordinate mc) = mc) :=
  ⟨⟨rfl, by decide⟩,
    patch_coordinate_round_trip movieM [4] 5 patchMid rfl (by decide)⟩

theorem mem_generate_pixels (shape : List Nat) (c : List Int) :
    c ∈ generate_pixels shape ↔
      List.Forall₂ (fun (x : Int) (n : Nat) => 0 ≤ x ∧ x < (n : Int)) c shape := by
  induction shape generalizing c with
  | nil => simp [generate_pixels, List.forall₂_nil_right_iff]
  | cons n rest ih =>
    rw [generate_pixels]
    simp only [List.mem_flatMap, List.mem_map, List.mem_range]
    constructor
    · rintro ⟨i, hi, c0, hc0, rfl⟩
      rw [List.forall₂_cons]
      exact ⟨⟨by omega, by exact_mod_cast hi⟩, (ih c0).mp hc0⟩
    · intro hf
      cases c with
      | nil => exact absurd hf (by simp)
      | cons x cs =>
        rw [List.forall₂_cons] at hf
        obtain ⟨⟨hx0, hxn⟩, hrest⟩ := hf
        refine ⟨x.toNat, by omega, cs, (ih cs).mpr hrest, ?_⟩
        simp [Int.toNat_of_nonneg hx0]

theorem pairwise_generate_pixels (shape : List Nat) :
    (generate_pixels shape).Pairwise (List.Lex (· < ·)) := by
  induction shape with
  | nil => simp [generate_pixels]
  | cons n rest ih =>
    rw [generate_pixels, List.pairwise_flatMap]
    constructor
    · intro a ha
      rw [List.pairwise_map]
      exact ih.imp (fun h => List.Lex.cons h)
    · refine (List.pairwise_lt_range n).imp ?_
      intro i j hij x hx y hy
      rw [List.mem_map] at hx hy
      obtain ⟨cx, -, rfl⟩ := hx
      obtain ⟨cy, -, rfl⟩ := hy
      exact List.Lex.rel (by exact_mod_cast hij)

theorem lex_zipWith_add (c c' off : List Int) (h : c.length = off.length)
    (h' : c'.length = off.length) (hlex : List.Lex (· < ·) c c') :
    List.Lex (· < ·) (List.zipWith (· + ·) c off) (List.zipWith (· + ·) c' off) := by
  induction hlex generalizing off with
  | nil =>
    cases off with
    | nil => simp at h'
    | cons o os => simp at h
  | cons hrest ih =>
    cases off with
    | nil => simp at h
    | cons o os =>
      simp only [List.zipWith_cons_cons]
      exact List.Lex.cons (ih os (by simpa using h) (by simpa using h'))
  | rel hr =>
    cases off with
    | nil => simp at h
    | cons o os =>
      simp only [List.zipWith_cons_cons]
      exact List.Lex.rel (by omega)

theorem lex_ne {a b : List Int} (h : List.Lex (· < ·) a b) : a ≠ b := by
  intro heq
  subst heq
  exact absurd h (asymm h)

theorem mem_add_offset_window (ps : Nat) (off : List Int) (m : List Int) :
    (∃ c, List.Forall₂ (fun (x : Int) (n : Nat) => 0 ≤ x ∧ x < (n : Int)) c
        (List.replicate off.length ps) ∧ m = List.zipWith (· + ·) c off) ↔
      List.Forall₂ (fun (x o : Int) => o ≤ x ∧ x < o + (ps : Int)) m off := by
  induction off generalizing m with
  | nil =>
    constructor
    · rintro ⟨c, hc, rfl⟩
      rw [List.length_nil, List.replicate_zero, List.forall₂_nil_right_iff] at hc
      subst hc
      exact List.Forall₂.nil
    · intro hm
      rw [List.forall₂_nil_right_iff] at hm
      exact ⟨[], by simp, by simp [hm]⟩
  | cons o os ih =>
    constructor
    · rintro ⟨c, hc, rfl⟩
      rw [List.length_cons, List.replicate_succ] at hc
      cases c with
      | nil => exact absurd hc (by simp)
      | cons x cs =>
        rw [List.forall₂_cons] at hc
        obtain ⟨⟨hx0, hxps⟩, hcs⟩ := hc
        simp only [List.zipWith_cons_cons]
        rw [List.forall₂_cons]
        exact ⟨⟨by omega, by omega⟩, (ih _).mp ⟨cs, hcs, rfl⟩⟩
    · intro hm
      cases m with
      | nil => exact absurd hm (by simp)
      | cons y ms =>
        rw [List.forall₂_cons] at hm
        obtain ⟨⟨hy1, hy2⟩, hms⟩ := hm
        obtain ⟨cs, hcs, hms_eq⟩ := (ih ms).mpr hms
        refine ⟨(y - o) :: cs, ?_, ?_⟩
        · rw [List.length_cons, List.replicate_succ, List.forall₂_cons]
          exact ⟨⟨by omega, by omega⟩, hcs⟩
        · simp only [List.zipWith_cons_cons, ← hms_eq, sub_add_cancel]

theorem add_offset_window_spec (ps : Nat) (off : List Int) :
    (∀ c : List Int,
        c ∈ add_offset_set_coordinates (generate_pixels (List.replicate off.length ps)) off ↔
          List.Forall₂ (fun (x o : Int) => o ≤ x ∧ x < o + (ps : Int)) c off) ∧
      (add_offset_set_coordinates
          (generate_pixels (List.replicate off.length ps)) off).Pairwise
        (List.Lex (· < ·)) ∧
      (add_offset_set_coordinates (generate_pixels (List.replicate off.length ps)) off).Nodup := by
  have hpw : (add_offset_set_coordinates
      (generate_pixels (List.replicate off.length ps)) off).Pairwise (List.Lex (· < ·)) := by
    rw [add_offset_set_coordinates, List.pairwise_map]
    refine (pairwise_generate_pixels _).imp_of_mem ?_
    intro a b ha hb hab
    have hla : a.length = off.length := by
      have := ((mem_generate_pixels _ a).mp ha).length_eq
      simpa using this
    have hlb : b.length = off.length := by
      have := ((mem_generate_pixels _ b).mp hb).length_eq
      simpa using this
    exact lex_zipWith_add a b off hla hlb hab
  refine ⟨?_, hpw, hpw.imp (fun h => lex_ne h)⟩
  intro c
  rw [add_offset_set_coordinates, List.mem_map, ← mem_add_offset_window ps off c]
  constructor
  · rintro ⟨c0, hc0, rfl⟩
    exact ⟨c0, (mem_generate_pixels _ c0).mp hc0, rfl⟩
  · rintro ⟨c0, hc0, rfl⟩
    exact ⟨c0, (mem_generate_pixels _ c0).mpr hc0, rfl⟩

/-- Claim C4: for every constructed Patch, `enumerate_pixels()` lists exactly the
movie-space coordinates covered by the patch window (each coordinate appears, and
appears exactly once), and the list is strictly increasing in the lexicographic
(row-major) order on coordinates — the enumeration order used for patch-local
indexing. -/
theorem enumerate_pixels_covers_window (movie : Movie) (center_seed : List Int)
    (patch_size : Nat) (p : Patch)
    (hinit : Patch.init movie center_seed patch_size = Except.ok p)
    (hlen : center_seed.length = movie.num_dimensions) :
    (∀ c : List Int, c ∈ p.enumerate_pixels ↔
        List.Forall₂ (fun (x o : Int) => o ≤ x ∧ x < o + (patch_size : Int))
          c p.coordinate_offset) ∧
      p.enumerate_pixels.Pairwise (List.Lex (· < ·)) ∧
      p.enumerate_pixels.Nodup := by
  obtain ⟨-, -, hps, hnd, hoff⟩ := Patch.init_ok movie center_seed patch_size p hinit
  have hofflen : p.coordinate_offset.length = p.num_dimensions := by
    rw [hoff, hnd]
    exact compute_coordinate_offset_length movie center_seed patch_size hlen
  have henum : p.enumerate_pixels =
      add_offset_set_coordinates
        (generate_pixels (List.replicate p.coordinate_offset.length patch_size))
        p.coordinate_offset := by
    rw [Patch.enumerate_pixels, Patch.pixel_shape, hofflen, hps]
  rw [henum]
  exact add_offset_window_spec patch_size p.coordinate_offset

/-- Witness for C4 at a concrete input: the patch around seed `(4,)` with size 5
and offset 2; its pixels are `[2..6]` in increasing order, each exactly once. -/
theorem enumerate_pixels_covers_window_witness :
    (Patch.init movieM [4] 5 = Except.ok patchMid ∧
        ([4] : List Int).length = movieM.num_dimensions) ∧
      (∀ c : List Int, c ∈ patchMid.enumerate_pixels ↔
          List.Forall₂ (fun (x o : Int) => o ≤ x ∧ x < o + (5 : Int)) c
            patchMid.coordinate_offset) ∧
      patchMid.enumerate_pixels.Pairwise (List.Lex (· < ·)) ∧
      patchMid.enumerate_pixels.Nodup :=
  ⟨⟨rfl, by decide⟩,
    enumerate_pixels_covers_window movieM [4] 5 patchMid rfl (by decide)⟩

/-- Modelled from the spec: `hnccorr.seeder` is not under `src/`; only its unit
tests are. Boolean row-major comparison on coordinates, the deterministic
tie-break of the ranking (spec section 4.4 step 3). -/
def rowMajorLe : List Int → List Int → Bool
  | [], _ => true
  | _ :: _, [] => false
  | x :: xs, y :: ys => if x < y then true else if y < x then false else rowMajorLe xs ys

/-- Modelled from the spec (section 4.4): state of the seed-selection iterator —
configuration, the retained ranking (best first), the cursor into it, and the
standing exclusion set. The keep fraction is kept as an exact ratio of naturals. -/
structure LocalCorrelationSeeder where
  neighborhood_size : Nat
  keep_fraction_num : Nat
  keep_fraction_den : Nat
  padding : Nat
  seeds : List (List Int)
  current_index : Nat
  excluded_pixels : List (List Int)
deriving DecidableEq

/-- Modelled from the spec: `LocalCorrelationSeeder.select_seeds` is not under
`src/`. Every movie pixel is scored (the reduction of a neighborhood to one
scalar is an explicit open configuration point, spec section 9, so the score is a
parameter), pixels are ranked by score descending with the deterministic
row-major tie-break, and the top `keep_fraction` of the ranking is retained
(spec section 4.4, steps 2-4). The unit tests fix that `padding` does not
restrict this ranking: `test_seeder_exclude_pixels_boundary` expects the boundary
pixel `(9,)` as the first seed even with `padding = 2`. -/
def LocalCorrelationSeeder.select_seeds (score : List Int → Int)
    (neighborhood_size keep_num keep_den padding : Nat) (movie : Movie) :
    LocalCorrelationSeeder :=
  let pixels := generate_pixels movie.pixel_shape
  let ranked := List.insertionSort
    (fun a b => score b < score a ∨ (score a = score b ∧ rowMajorLe a b = true)) pixels
  { neighborhood_size := neighborhood_size
    keep_fraction_num := keep_num
    keep_fraction_den := keep_den
    padding := padding
    seeds := ranked.take (pixels.length * keep_num / keep_den)
    current_index := 0
    excluded_pixels := [] }

/-- Helper for `next`: scans a suffix of the ranking, skipping excluded
coordinates. Returns the first non-excluded coordinate (or `none`) together with
the number of ranking entries consumed. -/
def nextFrom (excluded : List (List Int)) : List (List Int) → Option (List Int) × Nat
  | [] => (none, 0)
  | c :: rest =>
    if c ∈ excluded then
      ((nextFrom excluded rest).1, (nextFrom excluded rest).2 + 1)
    else (some c, 1)

/-- Modelled from the spec (section 4.4 iterator protocol): `next()` advances the
cursor through the retained ranking, skipping coordinates of the exclusion set,
and returns the next non-excluded coordinate, or `none` once the ranking is
exhausted. The cursor only ever moves forward. -/
def LocalCorrelationSeeder.next (s : LocalCorrelationSeeder) :
    Option (List Int) × LocalCorrelationSeeder :=
  let r := nextFrom s.excluded_pixels (s.seeds.drop s.current_index)
  (r.1, { s with current_index := s.current_index + r.2 })

/-- Offsets of the `(2 * padding + 1)`-wide axis-aligned box around a coordinate
of dimension `d`: every offset component lies in `[-padding, padding]`. -/
def neighborhood_offsets (padding d : Nat) : List (List Int) :=
  (generate_pixels (List.replicate d (2 * padding + 1))).map
    (fun c => c.map (fun x => x - (padding : Int)))

/-- Modelled from the spec and the unit tests: `exclude_pixels(S)` adds, for every
member of `S`, the whole box of pixels within `padding` of it (per axis) to the
standing exclusion set. The spec text describes `padding` as a boundary filter on
the ranking, but `test_seeder_exclude_pixels_boundary` fixes the implemented
semantics: with `padding = 2` the boundary pixel `(9,)` is still ranked first,
while excluding `(6,)` also retires `(8,)`. -/
def LocalCorrelationSeeder.exclude_pixels (s : LocalCorrelationSeeder)
    (pixels : List (List Int)) : LocalCorrelationSeeder :=
  { s with excluded_pixels := s.excluded_pixels ++
      pixels.flatMap (fun c =>
        (neighborhood_offsets s.padding c.length).map
          (fun o => add_offset_to_coordinate c o)) }

/-- Modelled from the spec (section 4.4): `reset()` rewinds the cursor to the
start of the retained ranking; the ranking and the exclusion set are untouched. -/
def LocalCorrelationSeeder.reset (s : LocalCorrelationSeeder) : LocalCorrelationSeeder :=
  { s with current_index := 0 }

/-- One driver-visible operation on the seeder state: a `next()` call, a `reset()`
call, or an `exclude_pixels` call. -/
inductive SeedOp where
  | advance : SeedOp
  | rewind : SeedOp
  | exclude : List (List Int) → SeedOp

/-- State reached after one driver operation. -/
def applyOp (s : LocalCorrelationSeeder) : SeedOp → LocalCorrelationSeeder
  | SeedOp.advance => (s.next).2
  | SeedOp.rewind => s.reset
  | SeedOp.exclude pixels => s.exclude_pixels pixels

/-- State reached after a sequence of driver operations. -/
def applyOps (s : LocalCorrelationSeeder) : List SeedOp → LocalCorrelationSeeder
  | [] => s
  | op :: ops => applyOps (applyOp s op) ops

/-- Sequence of coordinates of `l` that are not excluded, in order. -/
def remaining_sequence (excluded : List (List Int)) : List (List Int) → List (List Int)
  | [] => []
  | c :: rest =>
    if c ∈ excluded then remaining_sequence excluded rest
    else c :: remaining_sequence excluded rest

/-- Coordinates produced by repeatedly calling `next()` until it returns `none`,
with enough fuel. -/
def emitAll : Nat → LocalCorrelationSeeder → List (List Int)
  | 0, _ => []
  | fuel + 1, s =>
    match s.next with
    | (some c, s2) => c :: emitAll fuel s2
    | (none, _) => []

/-- Seeder of the end-to-end example: the 10-pixel movie with scores making pixel
`(9,)` the best and `(8,)` second best, `keep_fraction = 1/5`, `padding = 2` —
the configuration of `test_seeder_exclude_pixels_boundary`. -/
def seederMM : LocalCorrelationSeeder :=
  LocalCorrelationSeeder.select_seeds (fun c => c.headD 0) 3 1 5 2 movieM

theorem nextFrom_some_not_excluded (excluded : List (List Int)) (l : List (List Int))
    (c : List Int) (h : (nextFrom excluded l).1 = some c) : c ∉ excluded := by
  induction l with
  | nil => simp [nextFrom] at h
  | cons a rest ih =>
    by_cases ha : a ∈ excluded
    · rw [nextFrom, if_pos ha] at h
      exact ih h
    · rw [nextFrom, if_neg ha] at h
      cases h
      exact ha

theorem next_ne_excluded (s : LocalCorrelationSeeder) (c : List Int)
    (hc : c ∈ s.excluded_pixels) : (s.next).1 ≠ some c := by
  intro h
  exact nextFrom_some_not_excluded s.excluded_pixels (s.seeds.drop s.current_index) c h hc

theorem excluded_subset_applyOp (s : LocalCorrelationSeeder) (op : SeedOp) (c : List Int)
    (hc : c ∈ s.excluded_pixels) : c ∈ (applyOp s op).excluded_pixels := by
  cases op with
  | advance => exact hc
  | rewind => exact hc
  | exclude pixels =>
    show c ∈ s.excluded_pixels ++ _
    exact List.mem_append_left _ hc

theorem excluded_subset_applyOps (s : LocalCorrelationSeeder) (ops : List SeedOp)
    (c : List Int) (hc : c ∈ s.excluded_pixels) :
    c ∈ (applyOps s ops).excluded_pixels := by
  induction ops generalizing s with
  | nil => exact hc
  | cons op ops ih => exact ih _ (excluded_subset_applyOp s op c hc)

theorem forall₂_replicate_right {R : Int → Nat → Prop} (n d : Nat) (c : List Int) :
    List.Forall₂ R c (List.replicate d n) ↔ c.length = d ∧ ∀ x ∈ c, R x n := by
  induction c generalizing d with
  | nil =>
    cases d with
    | zero => simp
    | succ d2 => simp [List.replicate_succ]
  | cons x xs ih =>
    cases d with
    | zero => simp
    | succ d2 =>
      rw [List.replicate_succ, List.forall₂_cons]
      simp only [List.length_cons, List.mem_cons, ih]
      constructor
      · rintro ⟨hx, hl, hall⟩
        exact ⟨by omega, by rintro y (rfl | hy); exact hx; exact hall y hy⟩
      · rintro ⟨hl, hall⟩
        exact ⟨hall x (Or.inl rfl), by omega, fun y hy => hall y (Or.inr hy)⟩

theorem mem_neighborhood_offsets (padding d : Nat) (o : List Int) :
    o ∈ neighborhood_offsets padding d ↔
      o.length = d ∧ ∀ x ∈ o, -(padding : Int) ≤ x ∧ x ≤ padding := by
  rw [neighborhood_offsets, List.mem_map]
  constructor
  · rintro ⟨c, hc, rfl⟩
    rw [mem_generate_pixels, forall₂_replicate_right] at hc
    obtain ⟨hlen, hall⟩ := hc
    refine ⟨by simpa using hlen, ?_⟩
    intro x hx
    rw [List.mem_map] at hx
    obtain ⟨y, hy, rfl⟩ := hx
    have := hall y hy
    constructor <;> [skip; skip] <;> push_cast at this ⊢ <;> omega
  · rintro ⟨hlen, hall⟩
    refine ⟨o.map (fun x => x + (padding : Int)), ?_, ?_⟩
    · rw [mem_generate_pixels, forall₂_replicate_right]
      refine ⟨by simpa using hlen, ?_⟩
      intro x hx
      rw [List.mem_map] at hx
      obtain ⟨y, hy, rfl⟩ := hx
      have := hall y hy
      constructor <;> push_cast at this ⊢ <;> omega
    · rw [List.map_map]
      have hid : ((fun x => x - (padding : Int)) ∘ fun x => x + (padding : Int)) = id := by
        funext x
        simp
      rw [hid, List.map_id]

theorem zip_sub_bounds (p : Int) (c m : List Int)
    (h : List.Forall₂ (fun x y => |x - y| ≤ p) c m) :
    ∀ x ∈ List.zipWith (fun x y => x - y) c m, -p ≤ x ∧ x ≤ p := by
  induction h with
  | nil => simp
  | @cons a b l1 l2 hab hrest ih =>
    simp only [List.zipWith_cons_cons, List.mem_cons]
    rw [abs_le] at hab
    rintro x (rfl | hx)
    · exact ⟨by omega, by omega⟩
    · exact ih x hx

theorem add_offset_sub_cancel (c m : List Int) (h : c.length = m.length) :
    add_offset_to_coordinate m (List.zipWith (fun x y => x - y) c m) = c := by
  induction c generalizing m with
  | nil =>
    cases m with
    | nil => rfl
    | cons y ys => simp at h
  | cons x xs ih =>
    cases m with
    | nil => simp at h
    | cons y ys =>
      have := ih ys (by simpa using h)
      simp only [add_offset_to_coordinate, List.zipWith_cons_cons] at this ⊢
      rw [this]
      have hh : y + (x - y) = x := by ring
      rw [hh]

theorem mem_exclusion_box (padding : Nat) (c m : List Int)
    (h : List.Forall₂ (fun x y => |x - y| ≤ (padding : Int)) c m) :
    c ∈ (neighborhood_offsets padding m.length).map
      (fun o => add_offset_to_coordinate m o) := by
  rw [List.mem_map]
  refine ⟨List.zipWith (fun x y => x - y) c m, ?_, ?_⟩
  · rw [mem_neighborhood_offsets]
    refine ⟨?_, zip_sub_bounds _ c m h⟩
    rw [List.length_zipWith, h.length_eq]
    simp
  · exact add_offset_sub_cancel c m h.length_eq

theorem exclude_adds_box (s : LocalCorrelationSeeder) (S : List (List Int))
    (c m : List Int) (hm : m ∈ S)
    (h : List.Forall₂ (fun x y => |x - y| ≤ (s.padding : Int)) c m) :
    c ∈ (s.exclude_pixels S).excluded_pixels := by
  show c ∈ s.excluded_pixels ++ _
  rw [List.mem_append, List.mem_flatMap]
  right
  exact ⟨m, hm, mem_exclusion_box s.padding c m h⟩

/-- Claim C7: after `exclude_pixels(S)`, no later `next()` call — across any
further sequence of `next`, `reset`, and `exclude_pixels` operations — returns a
coordinate that is a member of `S`. -/
theorem excluded_never_returned (s : LocalCorrelationSeeder) (S : List (List Int))
    (ops : List SeedOp) (c : List Int) (hc : c ∈ S) :
    ((applyOps (s.exclude_pixels S) ops).next).1 ≠ some c := by
  have hself : List.Forall₂ (fun x y => |x - y| ≤ (s.padding : Int)) c c := by
    rw [List.forall₂_same]
    intro x hx
    simp
  have h0 : c ∈ (s.exclude_pixels S).excluded_pixels := exclude_adds_box s S c c hc hself
  exact next_ne_excluded _ c (excluded_subset_applyOps _ ops c h0)

/-- Witness for C7 at a concrete input: after excluding `(8,)` on the example
seeder, a later `next()` (here: immediately, after the first `next()` consumed
`(9,)`) does not return `(8,)`. -/
theorem excluded_never_returned_witness :
    ([8] ∈ ([[8]] : List (List Int))) ∧
      ((applyOps (seederMM.exclude_pixels [[8]]) [SeedOp.advance]).next).1 ≠ some [8] :=
  ⟨by decide, excluded_never_returned seederMM [[8]] [SeedOp.advance] [8] (by decide)⟩

/-- Claim C2 (amended): `padding` does not restrict the candidate ranking to
interior pixels; its implemented role is to dilate exclusions: after
`exclude_pixels(S)`, no later `next()` call — across any further operations —
returns any pixel within `padding` (per axis) of a member of `S`. -/
theorem padding_dilates_exclusion (s : LocalCorrelationSeeder) (S : List (List Int))
    (ops : List SeedOp) (c m : List Int) (hm : m ∈ S)
    (hnear : List.Forall₂ (fun x y => |x - y| ≤ (s.padding : Int)) c m) :
    ((applyOps (s.exclude_pixels S) ops).next).1 ≠ some c := by
  have h0 := exclude_adds_box s S c m hm hnear
  exact next_ne_excluded _ c (excluded_subset_applyOps _ ops c h0)

/-- Witness for the amended C2 at the concrete input of the boundary test:
excluding `(6,)` with `padding = 2` also retires `(8,)` (distance 2), so `next()`
cannot return `(8,)` afterwards. -/
theorem padding_dilates_exclusion_witness :
    ([6] ∈ ([[6]] : List (List Int)) ∧
        List.Forall₂ (fun x y => |x - y| ≤ ((seederMM.padding : Nat) : Int)) [8] [6]) ∧
      ((applyOps (seederMM.exclude_pixels [[6]]) []).next).1 ≠ some [8] := by
  have hnear : List.Forall₂ (fun x y => |x - y| ≤ ((seederMM.padding : Nat) : Int)) [8] [6] :=
    List.Forall₂.cons (show |(8 : Int) - 6| ≤ (2 : Int) by norm_num) List.Forall₂.nil
  exact ⟨⟨by decide, hnear⟩,
    padding_dilates_exclusion seederMM [[6]] [] [8] [6] (by decide) hnear⟩

/-- Counterexample to C2 as stated: with `padding = 2` on the 10-pixel movie (the
configuration of `test_seeder_exclude_pixels_boundary`), the boundary pixel
`(9,)` — at distance 0 from the upper edge, hence within `padding` of a boundary —
is retained in the ranking and returned by the first `next()`, exactly as the
unit test expects. -/
theorem boundary_pixel_still_ranked :
    (¬ List.Forall₂ (fun (x : Int) (n : Nat) => ((2 : Nat) : Int) ≤ x ∧ x + 2 < (n : Int))
        [9] movieM.pixel_shape) ∧
      seederMM.padding = 2 ∧ [9] ∈ seederMM.seeds ∧ (seederMM.next).1 = some [9] := by
  refine ⟨?_, rfl, by decide, by decide⟩
  intro hf
  rw [show movieM.pixel_shape = [10] from rfl, List.forall₂_cons] at hf
  obtain ⟨⟨-, h2⟩, -⟩ := hf
  omega

theorem nextFrom_none_spec (excluded : List (List Int)) (l : List (List Int))
    (h : (nextFrom excluded l).1 = none) : remaining_sequence excluded l = [] := by
  induction l with
  | nil => rfl
  | cons a rest ih =>
    by_cases ha : a ∈ excluded
    · rw [nextFrom, if_pos ha] at h
      rw [remaining_sequence, if_pos ha]
      exact ih h
    · rw [nextFrom, if_neg ha] at h
      exact absurd h (by simp)

theorem nextFrom_some_spec (excluded : List (List Int)) (l : List (List Int))
    (c : List Int) (h : (nextFrom excluded l).1 = some c) :
    remaining_sequence excluded l =
        c :: remaining_sequence excluded (l.drop (nextFrom excluded l).2) ∧
      1 ≤ (nextFrom excluded l).2 ∧ (nextFrom excluded l).2 ≤ l.length := by
  induction l with
  | nil => simp [nextFrom] at h
  | cons a rest ih =>
    by_cases ha : a ∈ excluded
    · rw [nextFrom, if_pos ha] at h
      obtain ⟨h1, h2, h3⟩ := ih h
      rw [remaining_sequence, if_pos ha, h1]
      rw [nextFrom, if_pos ha]
      refine ⟨?_, by omega, by simp; omega⟩
      rw [List.drop_succ_cons]
    · rw [nextFrom, if_neg ha] at h
      cases h
      rw [remaining_sequence, if_neg ha]
      rw [nextFrom, if_neg ha]
      refine ⟨?_, by omega, by simp⟩
      rw [List.drop_succ_cons, List.drop_zero]

theorem emitAll_eq (fuel : Nat) (s : LocalCorrelationSeeder)
    (h : s.seeds.length - s.current_index ≤ fuel) :
    emitAll fuel s = remaining_sequence s.excluded_pixels (s.seeds.drop s.current_index) := by
  induction fuel generalizing s with
  | zero =>
    have hdrop : s.seeds.drop s.current_index = [] := by
      apply List.drop_eq_nil_of_le
      omega
    rw [emitAll, hdrop]
    rfl
  | succ fuel ih =>
    cases ho : (nextFrom s.excluded_pixels (s.seeds.drop s.current_index)).1 with
    | none =>
      have hred : emitAll (fuel + 1) s = [] := by
        rw [emitAll]
        rw [show s.next =
          (none, { s with current_index := s.current_index +
            (nextFrom s.excluded_pixels (s.seeds.drop s.current_index)).2 }) from by
              rw [LocalCorrelationSeeder.next, ← ho]]
      rw [hred, nextFrom_none_spec _ _ ho]
    | some c =>
      obtain ⟨h1, h2, h3⟩ := nextFrom_some_spec _ _ c ho
      have hred : emitAll (fuel + 1) s =
          c :: emitAll fuel { s with current_index := s.current_index +
            (nextFrom s.excluded_pixels (s.seeds.drop s.current_index)).2 } := by
        rw [emitAll]
        rw [show s.next =
          (some c, { s with current_index := s.current_index +
            (nextFrom s.excluded_pixels (s.seeds.drop s.current_index)).2 }) from by
              rw [LocalCorrelationSeeder.next, ← ho]]
      rw [hred, h1]
      have hlen : s.seeds.length - s.current_index ≤ fuel + 1 := h
      rw [ih _ (by simp; omega)]
      have hdd : ({ s with current_index := s.current_index +
            (nextFrom s.excluded_pixels (s.seeds.drop s.current_index)).2 } :
          LocalCorrelationSeeder).seeds.drop
            (s.current_index + (nextFrom s.excluded_pixels (s.seeds.drop s.current_index)).2) =
          (s.seeds.drop s.current_index).drop
            (nextFrom s.excluded_pixels (s.seeds.drop s.current_index)).2 := by
        rw [List.drop_drop]
      rw [hdd]

/-- Claim C8: `reset()` rewinds the cursor to the beginning of the retained
ranking and changes nothing else — the ranking, the exclusion set, and the
configuration are exactly as before — so the sequence of coordinates that
`next()` produces after a reset is exactly the retained ranking with the
excluded coordinates skipped. -/
theorem reset_rewinds_only_cursor (s : LocalCorrelationSeeder) :
    s.reset.current_index = 0 ∧ s.reset.seeds = s.seeds ∧
      s.reset.excluded_pixels = s.excluded_pixels ∧
      s.reset.padding = s.padding ∧
      s.reset.neighborhood_size = s.neighborhood_size ∧
      s.reset.keep_fraction_num = s.keep_fraction_num ∧
      s.reset.keep_fraction_den = s.keep_fraction_den ∧
      emitAll s.seeds.length s.reset = remaining_sequence s.excluded_pixels s.seeds := by
  refine ⟨rfl, rfl, rfl, rfl, rfl, rfl, rfl, ?_⟩
  have h := emitAll_eq s.seeds.length s.reset (by simp [LocalCorrelationSeeder.reset])
  simpa [LocalCorrelationSeeder.reset] using h

/-- Modelled from the spec: `hnccorr.embedding` is not under `src/`. Mean of a
temporal trace (rational-valued; for an empty trace the total division yields 0). -/
def trace_mean (x : List ℚ) : ℚ := x.sum / x.length

/-- Modelled from the spec: a trace centered at its mean. -/
def centered (x : List ℚ) : List ℚ := x.map (fun v => v - trace_mean x)

/-- Modelled from the spec: covariance sum of two traces (the numerator of the
Pearson coefficient). -/
def covariance (x y : List ℚ) : ℚ :=
  (List.zipWith (· * ·) (centered x) (centered y)).sum

/-- Modelled from the spec: variance sum of a trace; zero exactly for traces that
are constant. -/
def variance (x : List ℚ) : ℚ := covariance x x

/-- Value of the floating-point correlation computation: the IEEE not-a-number
result, or a finite value. -/
inductive FpVal where
  | nan : FpVal
  | fin : ℚ → FpVal
deriving DecidableEq

/-- Modelled from the spec (section 4.3): Pearson correlation of two traces with
the documented policy for zero-variance traces. The coefficient
`cov / (sigma_x * sigma_y)` is irrational in general, so the finite branch
carries the equivalent signed square `cov * |cov| / (var x * var y)`, which
determines it; the computation yields IEEE not-a-number — not an error — exactly
when one of the variances is zero. -/
def corrcoef (x y : List ℚ) : FpVal :=
  if variance x = 0 ∨ variance y = 0 then FpVal.nan
  else FpVal.fin (covariance x y * |covariance x y| / (variance x * variance y))

/-- Modelled from the spec (section 3): the embedding matrix, whose entry `(i, j)`
is the temporal-correlation similarity of pixels `i` and `j` in the fixed
enumeration order. -/
structure CorrelationEmbedding where
  embedding : List (List FpVal)
deriving DecidableEq

/-- Modelled from the spec (section 4.3): construction of the embedding from the
per-pixel temporal traces of a patch (pixels in enumeration order). A total
function: construction never raises, whatever the traces contain. -/
def CorrelationEmbedding.ofTraces (traces : List (List ℚ)) : CorrelationEmbedding :=
  { embedding := traces.map (fun x => traces.map (fun y => corrcoef x y)) }

theorem ofTraces_entry (traces : List (List ℚ)) (i j : Nat)
    (hi : i < traces.length) (hj : j < traces.length) :
    ((CorrelationEmbedding.ofTraces traces).embedding.getD i []).getD j (FpVal.fin 0) =
      corrcoef (traces.get ⟨i, hi⟩) (traces.get ⟨j, hj⟩) := by
  rw [CorrelationEmbedding.ofTraces]
  have houter : (List.map (fun x => List.map (fun y => corrcoef x y) traces) traces).getD i []
      = List.map (fun y => corrcoef (traces.get ⟨i, hi⟩) y) traces := by
    rw [List.getD_eq_getElem _ _ (by simpa using hi), List.getElem_map, List.get_eq_getElem]
  rw [houter, List.getD_eq_getElem _ _ (by simpa using hj), List.getElem_map]
  rfl

/-- Claim C3: constructing a CorrelationEmbedding is total (it never raises: a
full row is produced for every pixel), and when the trace of pixel `i` has zero
variance, every correlation entry involving pixel `i` — both `(i, j)` and
`(j, i)` — is the not-a-number value, propagated in the matrix rather than
replaced by a finite fallback. The lookup defaults are finite values, so the
conclusion cannot come from an out-of-range access. -/
theorem embedding_nan_on_zero_variance (traces : List (List ℚ)) (i j : Nat)
    (hi : i < traces.length) (hj : j < traces.length)
    (hvar : variance (traces.get ⟨i, hi⟩) = 0) :
    (CorrelationEmbedding.ofTraces traces).embedding.length = traces.length ∧
      (((CorrelationEmbedding.ofTraces traces).embedding.getD i []).getD j (FpVal.fin 0) =
        FpVal.nan) ∧
      (((CorrelationEmbedding.ofTraces traces).embedding.getD j []).getD i (FpVal.fin 0) =
        FpVal.nan) := by
  refine ⟨by simp [CorrelationEmbedding.ofTraces], ?_, ?_⟩
  · rw [ofTraces_entry traces i j hi hj, corrcoef, if_pos (Or.inl hvar)]
  · rw [ofTraces_entry traces j i hj hi, corrcoef, if_pos (Or.inr hvar)]

/-- Witness for C3 at a concrete input: the trace `[1, 1, 1]` of pixel 0 is
constant (zero variance), so both embedding entries pairing it with the
non-constant trace `[0, 1, 2]` of pixel 1 are not-a-number. -/
theorem embedding_nan_on_zero_variance_witness :
    (variance [(1 : ℚ), 1, 1] = 0) ∧
      ((CorrelationEmbedding.ofTraces [[1, 1, 1], [0, 1, 2]]).embedding.length =
          ([[1, 1, 1], [0, 1, 2]] : List (List ℚ)).length ∧
        (((CorrelationEmbedding.ofTraces [[1, 1, 1], [0, 1, 2]]).embedding.getD 0 []).getD 1
            (FpVal.fin 0) = FpVal.nan) ∧
        (((CorrelationEmbedding.ofTraces [[1, 1, 1], [0, 1, 2]]).embedding.getD 1 []).getD 0
            (FpVal.fin 0) = FpVal.nan)) := by
  have hvar : variance [(1 : ℚ), 1, 1] = 0 := by
    norm_num [variance, covariance, centered, trace_mean]
  exact ⟨hvar, embedding_nan_on_zero_variance [[1, 1, 1], [0, 1, 2]] 0 1 (by norm_num)
    (by norm_num) hvar⟩

end HNCcorr
